import Mathlib

/-!
Verification of the pre-split data-preparation pipeline of the trading-board
project (scripts/03_pre_split_prep).  Tables are shallowly embedded: a missing
cell (pandas NaN) is `Option.none`, a present value is `some (q : ℚ)`;
timestamps are integers.  Each definition mirrors one function of the source.
-/

namespace TradingBoard

/-! ## Target generator (03_targets.py, generate_targets)

`df['target_{w}m'] = (df['close'].shift(-window) - df['close']) / df['close']`
followed by `df = df.iloc[:-max_window]` with `target_windows = [5, 15, 30]`.
`shift(-w)` at row `i` yields `close[i+w]` when it exists and NaN otherwise. -/

/-- One target cell: `(close[i+w] - close[i]) / close[i]`, `none` when `i+w`
is out of range (the NaN produced by `shift(-w)` at the tail). -/
def target_cell (close : List ℚ) (w i : ℕ) : Option ℚ :=
  match close[i + w]?, close[i]? with
  | some cf, some c0 => some ((cf - c0) / c0)
  | _, _ => none

/-- `generate_targets`: the three target columns per row, then `iloc[:-30]`
(`30 = max target window`). -/
def generate_targets (close : List ℚ) : List (Option ℚ × Option ℚ × Option ℚ) :=
  ((List.range close.length).map
    (fun i => (target_cell close 5 i, target_cell close 15 i, target_cell close 30 i))).take
    (close.length - 30)

/-! ## Temporal splitter (03_splitting.py, split_data)

`mask_train = idx <= train_date`, `mask_val = (idx > train_date) & (idx <= val_date)`,
`mask_test = (idx > val_date) & (idx <= test_date)`; raises when any split is
empty, and writes the three parquet artifacts only after that check. -/

structure SplitRes where
  train : List ℤ
  val : List ℤ
  test : List ℤ
deriving DecidableEq, Repr

/-- The three timestamp masks of `split_data` (step 4 of the source). -/
def split_masks (t1 t2 t3 : ℤ) (ts : List ℤ) : SplitRes :=
  ⟨ts.filter (fun x => decide (x ≤ t1)),
   ts.filter (fun x => decide (t1 < x ∧ x ≤ t2)),
   ts.filter (fun x => decide (t2 < x ∧ x ≤ t3))⟩

/-- `split_data`: the result (ok, or the empty-split error of step 5) paired
with the list of persisted artifacts (step 7 runs only after the check, so
nothing is persisted on the error path). -/
def split_data (t1 t2 t3 : ℤ) (ts : List ℤ) :
    Except String SplitRes × List (List ℤ) :=
  if (split_masks t1 t2 t3 ts).train = [] ∨ (split_masks t1 t2 t3 ts).val = []
      ∨ (split_masks t1 t2 t3 ts).test = [] then
    (Except.error "Mindestens eines der Splits (Train/Val/Test) ist leer.", [])
  else
    (Except.ok (split_masks t1 t2 t3 ts),
     [(split_masks t1 t2 t3 ts).train, (split_masks t1 t2 t3 ts).val,
      (split_masks t1 t2 t3 ts).test])

/-- Modelled from the spec: the proportional 70/15/15 split mode the spec
describes for the Temporal Splitter ("sort by timestamp, assign the first 70%
of rows to train, next 15% to validation, final 15% (remainder) to test").
This mode is absent from the source (`split_data` has no such branch); the
definition exists only to state the refinement claim C5 against it. -/
def proportional_split (ts : List ℤ) : SplitRes :=
  let sorted := ts.insertionSort (fun a b => a ≤ b)
  let n := sorted.length
  let nTrain := n * 70 / 100
  let nVal := n * 85 / 100 - nTrain
  ⟨sorted.take nTrain, (sorted.drop nTrain).take nVal, sorted.drop (nTrain + nVal)⟩

/-- Modelled from the spec: the proportional mode packaged as the Temporal
Splitter's result, including the spec's failure rule — "Fails with a
`SplitConfigurationError` if any resulting split is empty" applies to both
modes (§4.6) — so a spec-conformant proportional splitter errors exactly when
one of its three row blocks is empty and returns the blocks otherwise. -/
def proportional_split_data (ts : List ℤ) : Except String SplitRes :=
  if (proportional_split ts).train = [] ∨ (proportional_split ts).val = []
      ∨ (proportional_split ts).test = [] then
    Except.error "SplitConfigurationError"
  else
    Except.ok (proportional_split ts)

/-! ## Bar aligner (03_main_prep.py, load_and_sync_data)

`common_index = dfs[0].index; for rest: common_index = common_index.intersection(...)`,
then every symbol is reindexed to `common_index` (`df.loc[common_index]`);
the early return `[]` happens only when no symbol at all was loaded.
A series is modelled by its (sorted) timestamp list; `Index.intersection` of
sorted unique indexes keeps the left operand's order, i.e. is a filter. -/

/-- The folded common index of `load_and_sync_data`. -/
def common_index (series : List (List ℤ)) : List ℤ :=
  match series with
  | [] => []
  | s :: rest => rest.foldl (fun acc t => acc.filter (fun x => decide (x ∈ t))) s

/-- `load_and_sync_data` on the timestamp view: `none` is the "no data loaded"
early return; otherwise every symbol's aligned index is the common index. -/
def load_and_sync_data (series : List (List ℤ)) : Option (List (List ℤ)) :=
  match series with
  | [] => none
  | s :: rest => some ((s :: rest).map (fun _ => common_index (s :: rest)))

/-! ## Per-symbol feature engine (03_features.py / 03_main_prep.py, claim C4)

`engineer_qqq_features` computes `close.pct_change(w)`; in `main` it is called
on the dataframes ALREADY reindexed to the common index by
`load_and_sync_data` (`df.loc[common_index]` happens first).  A symbol's bar
series is a list of `(timestamp, close)` pairs; `df.loc[common_index]` on a
sorted series whose index contains the sorted common index is the filter that
keeps the rows whose timestamp lies in the common index. -/

/-- `close.pct_change(w)`: `(close[i] - close[i-w]) / close[i-w]`, NaN for the
first `w` rows. -/
def pct_change (w : ℕ) (close : List ℚ) : List (Option ℚ) :=
  (List.range close.length).map (fun i =>
    if w ≤ i then
      match close[i]?, close[i - w]? with
      | some a, some b => some ((a - b) / b)
      | _, _ => none
    else none)

/-- `df.loc[common_index]` on one symbol's series. -/
def restrict_series (common : List ℤ) (s : List (ℤ × ℚ)) : List (ℤ × ℚ) :=
  s.filter (fun p => decide (p.1 ∈ common))

/-- The `return_w` feature column of a series, keyed by timestamp. -/
def return_feature (w : ℕ) (s : List (ℤ × ℚ)) : List (ℤ × Option ℚ) :=
  (s.map Prod.fst).zip (pct_change w (s.map Prod.snd))

/-- What the code computes: align (truncate) first, then engineer features
(`main` step 2 is applied to the output of `load_and_sync_data`). -/
def code_return_feature (w : ℕ) (common : List ℤ) (s : List (ℤ × ℚ)) :
    List (ℤ × Option ℚ) :=
  return_feature w (restrict_series common s)

/-- Modelled from the spec: features computed on the full, un-truncated
history and only afterwards restricted to the aligned index ("input = one
symbol's bar columns over the full available history before alignment
truncation").  This variant exists to state refinement claim C4. -/
def spec_return_feature (w : ℕ) (common : List ℤ) (s : List (ℤ × ℚ)) :
    List (ℤ × Option ℚ) :=
  (return_feature w s).filter (fun p => decide (p.1 ∈ common))

/-! ## Cross-asset feature engine (03_features.py, engineer_cross_asset_features) -/

/-- The trailing window of length `w` ending at position `i` (pandas
`rolling(w)` at row `i`). -/
def window_slice (w i : ℕ) (x : List (Option ℚ)) : List (Option ℚ) :=
  (x.drop (i + 1 - w)).take w

/-- `x.rolling(w).corr(y)` with pandas defaults (`min_periods = w`): the cell
at `i` is defined only when the window is complete and every pair in it is
valid (no NaN on either side); `f` is the correlation kernel applied to the
two valid windows (its numeric value is irrelevant to every claim, which are
about missingness only, so it is kept parametric). -/
def rolling_corr_with (f : List ℚ → List ℚ → ℚ) (w : ℕ) (x y : List (Option ℚ)) :
    List (Option ℚ) :=
  (List.range x.length).map (fun i =>
    if w ≤ i + 1 ∧ (window_slice w i x).all Option.isSome
        ∧ (window_slice w i y).all Option.isSome then
      some (f ((window_slice w i x).reduceOption) ((window_slice w i y).reduceOption))
    else none)

/-- `df[cols].mean(axis=1)` with the pandas default `skipna=True`: the mean of
the non-missing entries, NaN only when all entries are missing. -/
def row_mean (l : List (Option ℚ)) : Option ℚ :=
  let vs := l.reduceOption
  if vs.length = 0 then none else some (vs.sum / vs.length)

/-- `relative_strength = df['return_5'] - avg_tech_return` (pandas subtraction:
NaN when either operand is NaN). -/
def relative_strength (q : Option ℚ) (tech : List (Option ℚ)) : Option ℚ :=
  match q with
  | none => none
  | some a =>
    match row_mean tech with
    | none => none
    | some m => some (a - m)

/-- `df[tech_return_cols].idxmax(axis=1)` on one row, as (position, value):
NaN entries are skipped (pandas default `skipna=True`), the first position
attaining the maximum wins, an all-NaN row gives NaN. -/
def idxmax_row : List (Option ℚ) → Option (ℕ × ℚ)
  | [] => none
  | none :: rest => (idxmax_row rest).map (fun p => (p.1 + 1, p.2))
  | some v :: rest =>
    match idxmax_row rest with
    | none => some (0, v)
    | some (j, u) => if v < u then some (j + 1, u) else some (0, v)

/-- `astype('category').cat.codes`: categories are the sorted distinct
non-missing values of the column, a missing cell is encoded as `-1`.  (In the
source the column holds symbol names and the categories are sorted
alphabetically; here the leader is identified by its predictor position, so
positions play the role of the names.) -/
def cat_codes (col : List (Option ℕ)) : List ℤ :=
  let cats := (col.reduceOption).dedup.insertionSort (fun a b => a ≤ b)
  col.map (fun c =>
    match c with
    | none => -1
    | some v => (cats.indexOf v : ℤ))

/-- The `momentum_leader` column: `idxmax(axis=1)` over the predictor return
columns, then categorical encoding (the intermediate `.apply` only strips the
column-name suffix and keeps NaN as NaN). -/
def momentum_leader (rows : List (List (Option ℚ))) : List ℤ :=
  cat_codes (rows.map (fun r => (idxmax_row r).map Prod.fst))

/-! ## Outlier / missing-data cleaner (03_features.py,
clean_extreme_outliers and handle_missing_data)

A table is a list of rows over a fixed column schema `kinds`; the kind of a
column records which of the name-based column groups of the source it falls
in (`'return' in col and 'target' not in col`, `'volume_norm' in col`,
`'realized_vol_10'`, anything else). -/

inductive ColKind
  /-- a percent-return feature column (`'return' in col and 'target' not in col`) -/
  | ret
  /-- a volume-normalization column (`'volume_norm' in col`) -/
  | vol
  /-- the `realized_vol_10` column -/
  | rvol
  /-- every other column (EMAs, vwap_norm, close, targets, ...) -/
  | other
deriving DecidableEq, Repr

/-- `df[col].between(-0.05, 0.05) | df[col].isna()` on one cell.  The bound
`0.05` is written `mkRat 5 100` so that the definition evaluates inside the
kernel (`5 / 100 : ℚ` elaborates through Mathlib's field division, which does
not reduce definitionally); `mkRat 5 100 = 5 / 100` is proved below. -/
def ret_cell_ok (c : Option ℚ) : Bool :=
  match c with
  | none => true
  | some v => decide (-(mkRat 5 100) ≤ v ∧ v ≤ mkRat 5 100)

/-- `df[col] <= 10.0` on one cell (NaN compares false in pandas). -/
def vol_cell_ok (c : Option ℚ) : Bool :=
  match c with
  | none => false
  | some v => decide (v ≤ (10 : ℚ))

/-- Step 1 of `clean_extreme_outliers` keeps a row iff every return column
passes `between(-0.05, 0.05) | isna()`; the source filters once per return
column, and `df[m1][m2] = df[m1 & m2]`, so the sequential per-column filters
compose into this conjunction. -/
def ret_row_ok (kinds : List ColKind) (row : List (Option ℚ)) : Bool :=
  (List.zipWith (fun k c => if k = ColKind.ret then ret_cell_ok c else true) kinds row).all id

/-- Step 3 of `clean_extreme_outliers`, composed the same way over the volume
columns. -/
def vol_row_ok (kinds : List ColKind) (row : List (Option ℚ)) : Bool :=
  (List.zipWith (fun k c => if k = ColKind.vol then vol_cell_ok c else true) kinds row).all id

/-- Step 2: `df[col] = df[col].clip(lower=0.01)` on the volume columns
(`0.01` written `mkRat 1 100`, see `ret_cell_ok`). -/
def clip_row (kinds : List ColKind) (row : List (Option ℚ)) : List (Option ℚ) :=
  List.zipWith
    (fun k c => if k = ColKind.vol then c.map (fun v => max v (mkRat 1 100)) else c)
    kinds row

/-- Step 4: `df['realized_vol_10'].replace(0, np.nan)`. -/
def rvol_row (kinds : List ColKind) (row : List (Option ℚ)) : List (Option ℚ) :=
  List.zipWith
    (fun k c =>
      if k = ColKind.rvol then
        match c with
        | some v => if v = 0 then none else some v
        | none => none
      else c)
    kinds row

/-- `clean_extreme_outliers`: return-outlier row filter, volume clip,
volume-outlier row filter, realized-volatility zero correction, in the
source's order. -/
def clean_extreme_outliers (kinds : List ColKind) (rows : List (List (Option ℚ))) :
    List (List (Option ℚ)) :=
  ((((rows.filter (ret_row_ok kinds)).map (clip_row kinds)).filter
      (vol_row_ok kinds)).map (rvol_row kinds))

/-- One step of `ffill`: each cell keeps its value, a missing cell takes the
carried last-seen value of its column. -/
def ffill_step (carry row : List (Option ℚ)) : List (Option ℚ) :=
  List.zipWith (fun c x => x.orElse (fun _ => c)) carry row

/-- `df.ffill()` relative to an initial per-column carry. -/
def ffill_from (carry : List (Option ℚ)) :
    List (List (Option ℚ)) → List (List (Option ℚ))
  | [] => []
  | r :: rs => ffill_step carry r :: ffill_from (ffill_step carry r) rs

/-- The carry left after forward-filling a block of rows. -/
def ffill_carry (carry : List (Option ℚ)) (rows : List (List (Option ℚ))) :
    List (Option ℚ) :=
  rows.foldl ffill_step carry

/-- `df.ffill()`: nothing is carried into the first row. -/
def ffill (kinds : List ColKind) (rows : List (List (Option ℚ))) :
    List (List (Option ℚ)) :=
  ffill_from (kinds.map (fun _ => none)) rows

/-- `df.bfill()`: forward fill on the reversed row order. -/
def bfill (kinds : List ColKind) (rows : List (List (Option ℚ))) :
    List (List (Option ℚ)) :=
  (ffill kinds rows.reverse).reverse

/-- `handle_missing_data`: `df.ffill().bfill()` then `df.dropna()`. -/
def handle_missing_data (kinds : List ColKind) (rows : List (List (Option ℚ))) :
    List (List (Option ℚ)) :=
  (bfill kinds (ffill kinds rows)).filter (fun r => r.all Option.isSome)

/-- The full Cleaner as `main` runs it: `clean_extreme_outliers` then
`handle_missing_data`. -/
def cleaner (kinds : List ColKind) (rows : List (List (Option ℚ))) :
    List (List (Option ℚ)) :=
  handle_missing_data kinds (clean_extreme_outliers kinds rows)

/-- Modelled from the spec: the forward-fill-only missing-value resolution the
spec prescribes ("forward-fill only, never backward-fill"); rows still missing
after the forward pass are dropped.  This variant exists to state the causal
part of refinement claim C1. -/
def handle_missing_data_ffonly (kinds : List ColKind)
    (rows : List (List (Option ℚ))) : List (List (Option ℚ)) :=
  (ffill kinds rows).filter (fun r => r.all Option.isSome)

/-- Modelled from the spec: the Cleaner with forward-fill-only resolution. -/
def cleaner_ffonly (kinds : List ColKind) (rows : List (List (Option ℚ))) :
    List (List (Option ℚ)) :=
  handle_missing_data_ffonly kinds (clean_extreme_outliers kinds rows)

/-! ## Invariant vocabulary used by the cleaner theorems -/

/-- A present value of a return column lies inside the outlier bound. -/
def ret_bounds (c : Option ℚ) : Prop :=
  ∀ v : ℚ, c = some v → -(5 / 100 : ℚ) ≤ v ∧ v ≤ 5 / 100

/-- A present value of a volume-normalization column lies inside the clip
floor and the outlier cap. -/
def vol_bounds (c : Option ℚ) : Prop :=
  ∀ v : ℚ, c = some v → (1 / 100 : ℚ) ≤ v ∧ v ≤ 10

/-- The per-cell invariant that `clean_extreme_outliers` establishes: return
cells are in-bound when present; volume cells are present and in-bound. -/
def cleaned_cell (k : ColKind) (c : Option ℚ) : Prop :=
  (k = ColKind.ret → ret_bounds c) ∧
  (k = ColKind.vol → c.isSome = true ∧ vol_bounds c)

/-- A row satisfies `cleaned_cell` at every position of the schema. -/
def cleaned_row (kinds : List ColKind) (row : List (Option ℚ)) : Prop :=
  ∀ (i : ℕ) k c, kinds[i]? = some k → row[i]? = some c → cleaned_cell k c

/-- The weaker per-cell invariant preserved by the fill carries. -/
def carry_cell (k : ColKind) (c : Option ℚ) : Prop :=
  (k = ColKind.ret → ret_bounds c) ∧ (k = ColKind.vol → vol_bounds c)

/-- A carry satisfies `carry_cell` at every position of the schema. -/
def carry_row (kinds : List ColKind) (row : List (Option ℚ)) : Prop :=
  ∀ (i : ℕ) k c, kinds[i]? = some k → row[i]? = some c → carry_cell k c

/-! # Theorems

## Temporal splitter: helper lemmas -/

theorem mem_masks_train {t1 t2 t3 : ℤ} {ts : List ℤ} {x : ℤ} :
    x ∈ (split_masks t1 t2 t3 ts).train ↔ x ∈ ts ∧ x ≤ t1 := by
  simp [split_masks]

theorem mem_masks_val {t1 t2 t3 : ℤ} {ts : List ℤ} {x : ℤ} :
    x ∈ (split_masks t1 t2 t3 ts).val ↔ x ∈ ts ∧ t1 < x ∧ x ≤ t2 := by
  simp [split_masks]

theorem mem_masks_test {t1 t2 t3 : ℤ} {ts : List ℤ} {x : ℤ} :
    x ∈ (split_masks t1 t2 t3 ts).test ↔ x ∈ ts ∧ t2 < x ∧ x ≤ t3 := by
  simp [split_masks]

theorem split_data_ok_iff {t1 t2 t3 : ℤ} {ts : List ℤ} {r : SplitRes} :
    (split_data t1 t2 t3 ts).1 = Except.ok r ↔
      (r = split_masks t1 t2 t3 ts ∧ (split_masks t1 t2 t3 ts).train ≠ [] ∧
       (split_masks t1 t2 t3 ts).val ≠ [] ∧ (split_masks t1 t2 t3 ts).test ≠ []) := by
  by_cases h : (split_masks t1 t2 t3 ts).train = [] ∨ (split_masks t1 t2 t3 ts).val = []
      ∨ (split_masks t1 t2 t3 ts).test = []
  · simp only [split_data, if_pos h]
    constructor
    · intro habs; cases habs
    · rintro ⟨-, h1, h2, h3⟩
      rcases h with h | h | h
      · exact absurd h h1
      · exact absurd h h2
      · exact absurd h h3
  · have hne : ¬((split_masks t1 t2 t3 ts).train = [] ∨ (split_masks t1 t2 t3 ts).val = []
        ∨ (split_masks t1 t2 t3 ts).test = []) := h
    push_neg at h
    simp only [split_data, if_neg hne]
    constructor
    · intro hok
      exact ⟨((Except.ok.injEq _ _).mp hok).symm, h.1, h.2.1, h.2.2⟩
    · rintro ⟨rfl, -, -, -⟩; rfl

theorem split_data_fails {t1 t2 t3 : ℤ} {ts : List ℤ}
    (h : (split_masks t1 t2 t3 ts).train = [] ∨ (split_masks t1 t2 t3 ts).val = []
      ∨ (split_masks t1 t2 t3 ts).test = []) :
    split_data t1 t2 t3 ts =
      (Except.error "Mindestens eines der Splits (Train/Val/Test) ist leer.", []) := by
  simp only [split_data, if_pos h]

/-- With sorted timestamps and ordered cutoffs, the three masks concatenate to
the prefix of rows at or before the last cutoff. -/
theorem filter_tri_append {t1 t2 t3 : ℤ} (h12 : t1 ≤ t2) (h23 : t2 ≤ t3) :
    ∀ {ts : List ℤ}, List.Sorted (· ≤ ·) ts →
      ts.filter (fun x => decide (x ≤ t1)) ++ ts.filter (fun x => decide (t1 < x ∧ x ≤ t2))
        ++ ts.filter (fun x => decide (t2 < x ∧ x ≤ t3))
      = ts.filter (fun x => decide (x ≤ t3))
  | [], _ => by simp
  | x :: rest, h => by
    have hx : ∀ y ∈ rest, x ≤ y := (List.sorted_cons.mp h).1
    have hs : List.Sorted (· ≤ ·) rest := (List.sorted_cons.mp h).2
    have ih := filter_tri_append h12 h23 hs
    have hemp : ∀ b : ℤ, x > b →
        ∀ p : ℤ → Bool, (∀ a : ℤ, p a = true → a ≤ b) → rest.filter p = [] := by
      intro b hxb p hp
      refine List.filter_eq_nil_iff.mpr (fun a ha hpa => ?_)
      have h1 := hp a hpa
      have h2 := hx a ha
      omega
    by_cases h1 : x ≤ t1
    · rw [List.filter_cons_of_pos (by simp only [decide_eq_true_eq]; omega),
        List.filter_cons_of_neg (by simp only [decide_eq_true_eq]; omega),
        List.filter_cons_of_neg (by simp only [decide_eq_true_eq]; omega),
        List.filter_cons_of_pos (by simp only [decide_eq_true_eq]; omega),
        List.cons_append, List.cons_append]
      exact congrArg (x :: ·) ih
    · by_cases h2 : x ≤ t2
      · have hA : (rest.filter (fun y => decide (y ≤ t1))) = [] :=
          hemp t1 (by omega) _ (fun a ha => by simpa using ha)
        rw [List.filter_cons_of_neg (by simp only [decide_eq_true_eq]; omega),
          List.filter_cons_of_pos (by simp only [decide_eq_true_eq]; omega),
          List.filter_cons_of_neg (by simp only [decide_eq_true_eq]; omega),
          List.filter_cons_of_pos (by simp only [decide_eq_true_eq]; omega),
          hA]
        rw [hA, List.nil_append] at ih
        rw [List.nil_append, List.cons_append]
        exact congrArg (x :: ·) ih
      · by_cases h3 : x ≤ t3
        · have hA : (rest.filter (fun y => decide (y ≤ t1))) = [] :=
            hemp t1 (by omega) _ (fun a ha => by simpa using ha)
          have hB : (rest.filter (fun y => decide (t1 < y ∧ y ≤ t2))) = [] :=
            hemp t2 (by omega) _ (fun a ha => by
              simp only [decide_eq_true_eq] at ha; omega)
          rw [List.filter_cons_of_neg (by simp only [decide_eq_true_eq]; omega),
            List.filter_cons_of_neg (by simp only [decide_eq_true_eq]; omega),
            List.filter_cons_of_pos (by simp only [decide_eq_true_eq]; omega),
            List.filter_cons_of_pos (by simp only [decide_eq_true_eq]; omega),
            hA, hB]
          rw [hA, hB, List.nil_append, List.nil_append] at ih
          rw [List.nil_append, List.nil_append]
          exact congrArg (x :: ·) ih
        · have hA : (rest.filter (fun y => decide (y ≤ t1))) = [] :=
            hemp t1 (by omega) _ (fun a ha => by simpa using ha)
          have hB : (rest.filter (fun y => decide (t1 < y ∧ y ≤ t2))) = [] :=
            hemp t2 (by omega) _ (fun a ha => by
              simp only [decide_eq_true_eq] at ha; omega)
          have hC : (rest.filter (fun y => decide (t2 < y ∧ y ≤ t3))) = [] :=
            hemp t3 (by omega) _ (fun a ha => by
              simp only [decide_eq_true_eq] at ha; omega)
          rw [List.filter_cons_of_neg (by simp only [decide_eq_true_eq]; omega),
            List.filter_cons_of_neg (by simp only [decide_eq_true_eq]; omega),
            List.filter_cons_of_neg (by simp only [decide_eq_true_eq]; omega),
            List.filter_cons_of_neg (by simp only [decide_eq_true_eq]; omega)]
          exact ih

/-! ## Claim C3: split partition -/

/-- Claim C3, counterexample: with cutoffs 0 < 1 < 2 the splitter succeeds on
the table `[0, 1, 2, 3]`, yet the timestamp `3` belongs to no split, so the
union of the three splits' index sets is not the cleaned table's index set. -/
theorem C3_counterexample :
    (split_data 0 1 2 [0, 1, 2, 3]).1 =
      Except.ok ⟨[0], [1], [2]⟩ ∧
    ((3 : ℤ) ∈ ([0, 1, 2, 3] : List ℤ)) ∧
    (([0] ++ [1] ++ [2] : List ℤ).contains 3 = false) := by
  refine ⟨?_, by decide, by decide⟩
  rfl

/-- Claim C3, amended: when `split_data` succeeds, the three splits are
pairwise disjoint, strictly time-ordered across splits, and their union is the
set of input timestamps at or before the last cutoff — rows after `TEST_DATE`
are excluded from every split, so the union equals the full index set only
when no such rows exist.  On a sorted input the three splits concatenate to
the contiguous prefix of rows at or before the last cutoff. -/
theorem C3_amended_split_partition :
    ∀ (t1 t2 t3 : ℤ) (ts : List ℤ) (r : SplitRes),
      (split_data t1 t2 t3 ts).1 = Except.ok r →
      ((∀ a ∈ r.train, ∀ b ∈ r.val, a < b) ∧
       (∀ b ∈ r.val, ∀ c ∈ r.test, b < c) ∧
       (∀ a ∈ r.train, ∀ c ∈ r.test, a < c) ∧
       (∀ x : ℤ, ¬(x ∈ r.train ∧ x ∈ r.val) ∧ ¬(x ∈ r.train ∧ x ∈ r.test) ∧
         ¬(x ∈ r.val ∧ x ∈ r.test)) ∧
       (∀ x : ℤ, (x ∈ r.train ∨ x ∈ r.val ∨ x ∈ r.test) ↔ (x ∈ ts ∧ x ≤ t3)) ∧
       (List.Sorted (· ≤ ·) ts →
         r.train ++ r.val ++ r.test = ts.filter (fun x => decide (x ≤ t3)))) := by
  intro t1 t2 t3 ts r hok
  obtain ⟨rfl, htr, hv, hte⟩ := split_data_ok_iff.mp hok
  obtain ⟨bv, hbv⟩ := List.exists_mem_of_ne_nil _ hv
  obtain ⟨bt, hbt⟩ := List.exists_mem_of_ne_nil _ hte
  have h12 : t1 < t2 := by
    have := mem_masks_val.mp hbv; omega
  have h23 : t2 < t3 := by
    have := mem_masks_test.mp hbt; omega
  have horder1 : ∀ a ∈ (split_masks t1 t2 t3 ts).train,
      ∀ b ∈ (split_masks t1 t2 t3 ts).val, a < b := by
    intro a ha b hb
    have h1 := mem_masks_train.mp ha
    have h2 := mem_masks_val.mp hb
    omega
  have horder2 : ∀ b ∈ (split_masks t1 t2 t3 ts).val,
      ∀ c ∈ (split_masks t1 t2 t3 ts).test, b < c := by
    intro b hb c hc
    have h1 := mem_masks_val.mp hb
    have h2 := mem_masks_test.mp hc
    omega
  have horder3 : ∀ a ∈ (split_masks t1 t2 t3 ts).train,
      ∀ c ∈ (split_masks t1 t2 t3 ts).test, a < c := by
    intro a ha c hc
    have h1 := mem_masks_train.mp ha
    have h2 := mem_masks_test.mp hc
    omega
  refine ⟨horder1, horder2, horder3, ?_, ?_, ?_⟩
  · intro x
    refine ⟨fun ⟨h1, h2⟩ => ?_, fun ⟨h1, h2⟩ => ?_, fun ⟨h1, h2⟩ => ?_⟩
    · exact absurd rfl (Int.ne_of_lt (horder1 x h1 x h2))
    · exact absurd rfl (Int.ne_of_lt (horder3 x h1 x h2))
    · exact absurd rfl (Int.ne_of_lt (horder2 x h1 x h2))
  · intro x
    constructor
    · rintro (hx | hx | hx)
      · have := mem_masks_train.mp hx; exact ⟨this.1, by omega⟩
      · have := mem_masks_val.mp hx; exact ⟨this.1, by omega⟩
      · have := mem_masks_test.mp hx; exact ⟨this.1, by omega⟩
    · rintro ⟨hx, hx3⟩
      by_cases hc1 : x ≤ t1
      · exact Or.inl (mem_masks_train.mpr ⟨hx, hc1⟩)
      · by_cases hc2 : x ≤ t2
        · exact Or.inr (Or.inl (mem_masks_val.mpr ⟨hx, by omega, hc2⟩))
        · exact Or.inr (Or.inr (mem_masks_test.mpr ⟨hx, by omega, hx3⟩))
  · intro hsorted
    exact filter_tri_append (by omega) (by omega) hsorted

/-- Witness for `C3_amended_split_partition` at a concrete successful split. -/
theorem C3_amended_witness :
    (∀ a ∈ (⟨[0], [1], [2]⟩ : SplitRes).train,
      ∀ b ∈ (⟨[0], [1], [2]⟩ : SplitRes).val, a < b) ∧
    (∀ x : ℤ, (x ∈ (⟨[0], [1], [2]⟩ : SplitRes).train ∨
        x ∈ (⟨[0], [1], [2]⟩ : SplitRes).val ∨ x ∈ (⟨[0], [1], [2]⟩ : SplitRes).test) ↔
      (x ∈ ([0, 1, 2, 3] : List ℤ) ∧ x ≤ 2)) := by
  have h := C3_amended_split_partition 0 1 2 [0, 1, 2, 3] ⟨[0], [1], [2]⟩ rfl
  exact ⟨h.1, h.2.2.2.2.1⟩

/-! ## Claim C5: proportional split mode -/

/-- Claim C5, counterexample: no configuration of the splitter realizes the
spec's proportional 70/15/15 mode (modelled with the spec's own empty-split
failure rule) on every table.  For any cutoffs, a sorted ten-row table lying
entirely after the last cutoff distinguishes the two: the proportional mode
succeeds with the nonempty 7/1/2 row partition, while `split_data`'s test
mask is empty and it fails. -/
theorem C5_counterexample :
    (∃ t1 t2 t3 : ℤ, ∀ ts : List ℤ,
        (split_data t1 t2 t3 ts).1 = proportional_split_data ts) = False := by
  refine eq_false ?_
  rintro ⟨t1, t2, t3, h⟩
  have h1 := h [t3 + 1, t3 + 2, t3 + 3, t3 + 4, t3 + 5,
    t3 + 6, t3 + 7, t3 + 8, t3 + 9, t3 + 10]
  have htest : (split_masks t1 t2 t3 [t3 + 1, t3 + 2, t3 + 3, t3 + 4, t3 + 5,
      t3 + 6, t3 + 7, t3 + 8, t3 + 9, t3 + 10]).test = [] := by
    simp only [split_masks]
    refine List.filter_eq_nil_iff.mpr (fun a ha hpa => ?_)
    simp only [List.mem_cons, List.not_mem_nil, or_false] at ha
    simp only [decide_eq_true_eq] at hpa
    rcases ha with rfl | rfl | rfl | rfl | rfl | rfl | rfl | rfl | rfl | rfl <;> omega
  have herr := split_data_fails (Or.inr (Or.inr htest))
  rw [herr] at h1
  have hchain : List.Chain' (fun a b : ℤ => a ≤ b) [t3 + 1, t3 + 2, t3 + 3, t3 + 4,
      t3 + 5, t3 + 6, t3 + 7, t3 + 8, t3 + 9, t3 + 10] := by
    simp only [List.chain'_cons, List.chain'_singleton, and_true]
    omega
  have hsorted : List.Sorted (fun a b : ℤ => a ≤ b) [t3 + 1, t3 + 2, t3 + 3, t3 + 4,
      t3 + 5, t3 + 6, t3 + 7, t3 + 8, t3 + 9, t3 + 10] :=
    List.chain'_iff_pairwise.mp hchain
  have hsort_eq : ([t3 + 1, t3 + 2, t3 + 3, t3 + 4, t3 + 5, t3 + 6, t3 + 7, t3 + 8,
      t3 + 9, t3 + 10] : List ℤ).insertionSort (fun a b => a ≤ b) =
      [t3 + 1, t3 + 2, t3 + 3, t3 + 4, t3 + 5, t3 + 6, t3 + 7, t3 + 8, t3 + 9,
       t3 + 10] :=
    hsorted.insertionSort_eq
  have hps : proportional_split [t3 + 1, t3 + 2, t3 + 3, t3 + 4, t3 + 5, t3 + 6,
      t3 + 7, t3 + 8, t3 + 9, t3 + 10] =
      ⟨[t3 + 1, t3 + 2, t3 + 3, t3 + 4, t3 + 5, t3 + 6, t3 + 7], [t3 + 8],
       [t3 + 9, t3 + 10]⟩ := by
    simp only [proportional_split, hsort_eq, List.length_cons, List.length_nil]
    norm_num
  have hprop : proportional_split_data [t3 + 1, t3 + 2, t3 + 3, t3 + 4, t3 + 5,
      t3 + 6, t3 + 7, t3 + 8, t3 + 9, t3 + 10] =
      Except.ok ⟨[t3 + 1, t3 + 2, t3 + 3, t3 + 4, t3 + 5, t3 + 6, t3 + 7], [t3 + 8],
        [t3 + 9, t3 + 10]⟩ := by
    rw [proportional_split_data, hps]
    rw [if_neg (by simp)]
  rw [hprop] at h1
  cases h1

/-- Claim C5, amended: the splitter has a single, timestamp-cutoff mode; it
succeeds exactly when the three cutoff masks are all nonempty, and then
returns exactly those masks.  No proportional 70/15/15 assignment by row
position exists in `split_data`. -/
theorem C5_amended_single_mode :
    ∀ (t1 t2 t3 : ℤ) (ts : List ℤ) (r : SplitRes),
      (split_data t1 t2 t3 ts).1 = Except.ok r ↔
        (r = split_masks t1 t2 t3 ts ∧ (split_masks t1 t2 t3 ts).train ≠ [] ∧
         (split_masks t1 t2 t3 ts).val ≠ [] ∧ (split_masks t1 t2 t3 ts).test ≠ []) :=
  fun _ _ _ _ _ => split_data_ok_iff

/-! ## Claim C7: split failure handling -/

/-- Claim C7: whenever a resulting split is empty, or the cutoffs are not
strictly increasing (which forces an empty validation or test mask), the
splitter signals the error and persists nothing. -/
theorem C7_split_failure :
    ∀ (t1 t2 t3 : ℤ) (ts : List ℤ),
      (¬(t1 < t2 ∧ t2 < t3) ∨ (split_masks t1 t2 t3 ts).train = []
        ∨ (split_masks t1 t2 t3 ts).val = [] ∨ (split_masks t1 t2 t3 ts).test = []) →
      (∃ e, (split_data t1 t2 t3 ts).1 = Except.error e) ∧
        (split_data t1 t2 t3 ts).2 = [] := by
  intro t1 t2 t3 ts h
  have hemp : (split_masks t1 t2 t3 ts).train = [] ∨ (split_masks t1 t2 t3 ts).val = []
      ∨ (split_masks t1 t2 t3 ts).test = [] := by
    rcases h with h | h | h | h
    · rcases not_and_or.mp h with h | h
      · refine Or.inr (Or.inl (List.filter_eq_nil_iff.mpr (fun a _ hpa => ?_)))
        simp only [decide_eq_true_eq] at hpa
        omega
      · refine Or.inr (Or.inr (List.filter_eq_nil_iff.mpr (fun a _ hpa => ?_)))
        simp only [decide_eq_true_eq] at hpa
        omega
    · exact Or.inl h
    · exact Or.inr (Or.inl h)
    · exact Or.inr (Or.inr h)
  rw [split_data_fails hemp]
  exact ⟨⟨_, rfl⟩, rfl⟩

/-- Witness for `C7_split_failure`: non-increasing cutoffs on a nonempty
table. -/
theorem C7_split_failure_witness :
    (∃ e, (split_data 1 0 2 [0]).1 = Except.error e) ∧ (split_data 1 0 2 [0]).2 = [] :=
  C7_split_failure 1 0 2 [0] (Or.inl (by omega))

/-! ## Bar aligner: helper lemmas -/

theorem common_foldl_mem :
    ∀ (rest : List (List ℤ)) (acc : List ℤ) (x : ℤ),
      (x ∈ rest.foldl (fun acc t => acc.filter (fun y => decide (y ∈ t))) acc ↔
        x ∈ acc ∧ ∀ t ∈ rest, x ∈ t)
  | [], _, _ => by simp
  | t :: rest, acc, x => by
    rw [List.foldl_cons, common_foldl_mem rest]
    simp only [List.mem_filter, decide_eq_true_eq, List.mem_cons]
    constructor
    · rintro ⟨⟨hacc, ht⟩, hrest⟩
      refine ⟨hacc, fun u hu => ?_⟩
      rcases hu with rfl | hu
      · exact ht
      · exact hrest u hu
    · rintro ⟨hacc, hall⟩
      exact ⟨⟨hacc, hall t (Or.inl rfl)⟩, fun u hu => hall u (Or.inr hu)⟩

theorem common_foldl_sorted :
    ∀ (rest : List (List ℤ)) (acc : List ℤ), List.Sorted (· < ·) acc →
      List.Sorted (· < ·) (rest.foldl (fun acc t => acc.filter (fun y => decide (y ∈ t))) acc)
  | [], _, h => h
  | t :: rest, acc, h =>
    common_foldl_sorted rest (acc.filter (fun y => decide (y ∈ t)))
      (List.Sorted.filter _ h)

theorem mem_common_index {series : List (List ℤ)} (h : series ≠ []) (x : ℤ) :
    x ∈ common_index series ↔ ∀ t ∈ series, x ∈ t := by
  cases series with
  | nil => exact absurd rfl h
  | cons s rest =>
    simp only [common_index]
    rw [common_foldl_mem rest]
    constructor
    · rintro ⟨hs, hrest⟩ u hu
      rcases List.mem_cons.mp hu with rfl | hu
      · exact hs
      · exact hrest u hu
    · intro hall
      exact ⟨hall s (List.mem_cons_self s rest), fun u hu => hall u (List.mem_cons_of_mem s hu)⟩

/-! ## Claim C8: aligner failure behaviour -/

/-- Claim C8, counterexample: with one symbol's bar series empty, the aligner
does not fail — it returns a result (`some`), whose aligned tables are simply
empty; the same happens when all series are nonempty but their intersection is
empty. -/
theorem C8_counterexample :
    load_and_sync_data [[0], []] = some [[], []] ∧
    load_and_sync_data [[0], [1]] = some [[], []] ∧
    load_and_sync_data [[0], []] ≠ none := by
  refine ⟨rfl, rfl, ?_⟩
  intro h
  cases h

/-- Claim C8, amended: the aligner only signals "no data" when no symbol at
all is present; for any nonempty list of series — including ones with an empty
series or an empty intersection — it returns the aligned tables, all indexed
by the common index.  That index is the set intersection of all symbols'
timestamp sets, it is sorted ascending whenever the first series is, and as a
set it does not depend on the symbol order. -/
theorem C8_amended_aligner :
    ∀ (s : List ℤ) (rest : List (List ℤ)),
      (load_and_sync_data (s :: rest) =
        some ((s :: rest).map (fun _ => common_index (s :: rest)))) ∧
      (∀ x : ℤ, x ∈ common_index (s :: rest) ↔ ∀ t ∈ s :: rest, x ∈ t) ∧
      (List.Sorted (· < ·) s → List.Sorted (· < ·) (common_index (s :: rest))) ∧
      (∀ series2 : List (List ℤ), List.Perm (s :: rest) series2 →
        ∀ x : ℤ, (x ∈ common_index (s :: rest) ↔ x ∈ common_index series2)) := by
  intro s rest
  refine ⟨rfl, mem_common_index (by simp) , ?_, ?_⟩
  · intro hsorted
    exact common_foldl_sorted rest s hsorted
  · intro series2 hperm x
    have hne2 : series2 ≠ [] := by
      intro h
      rw [h] at hperm
      exact absurd hperm.symm.length_eq (by simp)
    rw [mem_common_index (by simp) x, mem_common_index hne2 x]
    constructor
    · intro hall t ht
      exact hall t (hperm.mem_iff.mpr ht)
    · intro hall t ht
      exact hall t (hperm.mem_iff.mp ht)

/-- Witness for `C8_amended_aligner` at a concrete pair of series. -/
theorem C8_amended_aligner_witness :
    load_and_sync_data [[0, 1], [1, 2]] =
      some [common_index [[0, 1], [1, 2]], common_index [[0, 1], [1, 2]]] ∧
    ((1 : ℤ) ∈ common_index [[0, 1], [1, 2]] ↔
      ∀ t ∈ [[0, 1], [1, 2]], (1 : ℤ) ∈ t) := by
  have h := C8_amended_aligner [0, 1] [[1, 2]]
  exact ⟨h.1, h.2.1 1⟩

/-! ## Claim C2: target generation -/

/-- Claim C2: every row retained by `generate_targets` carries, for each
horizon `h ∈ {5, 15, 30}`, the defined (non-missing) regression target
`(close[i+h] - close[i]) / close[i]`; the truncation removes exactly the rows
whose largest horizon runs past the end, leaving `len(input) - 30` rows. -/
theorem C2_generate_targets :
    ∀ close : List ℚ,
      (generate_targets close).length = close.length - 30 ∧
      ∀ i : ℕ, i < (generate_targets close).length →
        ∃ c0 c5 c15 c30 : ℚ,
          close[i]? = some c0 ∧ close[i + 5]? = some c5 ∧
          close[i + 15]? = some c15 ∧ close[i + 30]? = some c30 ∧
          (generate_targets close)[i]? =
            some (some ((c5 - c0) / c0), some ((c15 - c0) / c0), some ((c30 - c0) / c0)) := by
  intro close
  have hlen : (generate_targets close).length = close.length - 30 := by
    simp only [generate_targets, List.length_take, List.length_map, List.length_range]
    exact Nat.min_eq_left (Nat.sub_le _ _)
  refine ⟨hlen, fun i hi => ?_⟩
  rw [hlen] at hi
  have h30 : i + 30 < close.length := by omega
  obtain ⟨c0, h0⟩ : ∃ c, close[i]? = some c :=
    ⟨_, List.getElem?_eq_getElem (by omega)⟩
  obtain ⟨c5, h5⟩ : ∃ c, close[i + 5]? = some c :=
    ⟨_, List.getElem?_eq_getElem (by omega)⟩
  obtain ⟨c15, h15⟩ : ∃ c, close[i + 15]? = some c :=
    ⟨_, List.getElem?_eq_getElem (by omega)⟩
  obtain ⟨c30, h30e⟩ : ∃ c, close[i + 30]? = some c :=
    ⟨_, List.getElem?_eq_getElem (by omega)⟩
  refine ⟨c0, c5, c15, c30, h0, h5, h15, h30e, ?_⟩
  rw [generate_targets, List.getElem?_take_of_lt hi, List.getElem?_map,
    List.getElem?_range (by omega)]
  simp only [Option.map_some']
  rw [target_cell, target_cell, target_cell, h0, h5, h15, h30e]

/-- Witness for `C2_generate_targets` on a 31-row close series. -/
theorem C2_generate_targets_witness :
    0 < (generate_targets (List.replicate 31 (1 : ℚ))).length ∧
    (∃ c0 c5 c15 c30 : ℚ,
      (List.replicate 31 (1 : ℚ))[0]? = some c0 ∧
      (List.replicate 31 (1 : ℚ))[0 + 5]? = some c5 ∧
      (List.replicate 31 (1 : ℚ))[0 + 15]? = some c15 ∧
      (List.replicate 31 (1 : ℚ))[0 + 30]? = some c30 ∧
      (generate_targets (List.replicate 31 (1 : ℚ)))[0]? =
        some (some ((c5 - c0) / c0), some ((c15 - c0) / c0), some ((c30 - c0) / c0))) := by
  have h := C2_generate_targets (List.replicate 31 (1 : ℚ))
  have hlen : (generate_targets (List.replicate 31 (1 : ℚ))).length = 1 := by
    rw [h.1]; rfl
  exact ⟨by omega, h.2 0 (by omega)⟩

/-! ## Claim C4: per-symbol features and alignment truncation -/

/-- Claim C4, counterexample: a six-row symbol series whose aligned index
keeps only the last bar.  The code (truncate, then engineer) has no warm-up
rows left, so `return_5` at the aligned bar is missing; computing on the full
history first and restricting afterwards yields the defined return `5`. -/
theorem C4_counterexample :
    code_return_feature 5 [5] [(0, 1), (1, 1), (2, 1), (3, 1), (4, 1), (5, 6)] =
      [(5, none)] ∧
    (spec_return_feature 5 [5] [(0, 1), (1, 1), (2, 1), (3, 1), (4, 1), (5, 6)]).map
      (fun p => p.2.isSome) = [true] ∧
    code_return_feature 5 [5] [(0, 1), (1, 1), (2, 1), (3, 1), (4, 1), (5, 6)] ≠
      spec_return_feature 5 [5] [(0, 1), (1, 1), (2, 1), (3, 1), (4, 1), (5, 6)] := by
  refine ⟨rfl, rfl, fun h => ?_⟩
  have hspec : (spec_return_feature 5 [5]
      [(0, 1), (1, 1), (2, 1), (3, 1), (4, 1), (5, 6)]).map (fun p => p.2.isSome)
      = [true] := rfl
  rw [← h] at hspec
  cases hspec

/-- Claim C4, amended: the code computes per-symbol features on the
already-truncated (aligned) series, not on the full history; the spec's
equality between the two computations holds exactly when the alignment
removes no row of that symbol, i.e. truncation is a no-op. -/
theorem C4_amended_features :
    ∀ (w : ℕ) (common : List ℤ) (s : List (ℤ × ℚ)),
      (∀ p ∈ s, p.1 ∈ common) →
      code_return_feature w common s = spec_return_feature w common s := by
  intro w common s hall
  have hres : restrict_series common s = s :=
    List.filter_eq_self.mpr (fun p hp => by simpa using hall p hp)
  rw [code_return_feature, hres, spec_return_feature]
  refine (List.filter_eq_self.mpr ?_).symm
  rintro ⟨a, b⟩ hq
  have ha : a ∈ s.map Prod.fst := (List.of_mem_zip hq).1
  obtain ⟨p, hp, hpa⟩ := List.mem_map.mp ha
  simpa using hpa ▸ hall p hp

/-- Witness for `C4_amended_features`: an alignment that keeps every row. -/
theorem C4_amended_features_witness :
    code_return_feature 5 [0, 1] [(0, 1), (1, 2)] =
      spec_return_feature 5 [0, 1] [(0, 1), (1, 2)] :=
  C4_amended_features 5 [0, 1] [(0, 1), (1, 2)] (by decide)

/-! ## Cross-asset features: helper lemmas -/

theorem idxmax_row_none :
    ∀ (l : List (Option ℚ)), (∀ c ∈ l, c = none) → idxmax_row l = none
  | [], _ => rfl
  | none :: rest, h => by
    have ih := idxmax_row_none rest (fun c hc => h c (List.mem_cons_of_mem _ hc))
    simp [idxmax_row, ih]
  | some v :: rest, h => absurd (h (some v) (List.mem_cons_self _ _)) (by simp)

theorem idxmax_row_none_no_some :
    ∀ (l : List (Option ℚ)), idxmax_row l = none →
      ∀ (k : ℕ) (u : ℚ), l[k]? = some (some u) → False
  | [], _, k, u, hk => by simp at hk
  | none :: rest, h, k, u, hk => by
    rw [show idxmax_row (none :: rest) =
        (idxmax_row rest).map (fun p => (p.1 + 1, p.2)) from rfl] at h
    have hrest : idxmax_row rest = none := by
      cases hr : idxmax_row rest with
      | none => rfl
      | some p => rw [hr] at h; cases h
    cases k with
    | zero => rw [List.getElem?_cons_zero] at hk; cases hk
    | succ k =>
      rw [List.getElem?_cons_succ] at hk
      exact idxmax_row_none_no_some rest hrest k u hk
  | some v :: rest, h, k, u, hk => by
    rw [show idxmax_row (some v :: rest) =
        (match idxmax_row rest with
          | none => some (0, v)
          | some (j, u) => if v < u then some (j + 1, u) else some (0, v)) from rfl] at h
    cases hr : idxmax_row rest with
    | none => rw [hr] at h; cases h
    | some p =>
      obtain ⟨j0, u0⟩ := p
      rw [hr] at h
      have h2 : (if v < u0 then some (j0 + 1, u0) else some (0, v)) = none := h
      by_cases hvu : v < u0
      · rw [if_pos hvu] at h2; cases h2
      · rw [if_neg hvu] at h2; cases h2

theorem idxmax_row_spec :
    ∀ (l : List (Option ℚ)) (j : ℕ) (v : ℚ), idxmax_row l = some (j, v) →
      (l[j]? = some (some v) ∧
        ∀ (k : ℕ) (u : ℚ), l[k]? = some (some u) → u ≤ v ∧ (v ≤ u → j ≤ k))
  | [], j, v, h => by cases h
  | none :: rest, j, v, h => by
    rw [show idxmax_row (none :: rest) =
        (idxmax_row rest).map (fun p => (p.1 + 1, p.2)) from rfl] at h
    cases hr : idxmax_row rest with
    | none => rw [hr] at h; cases h
    | some p =>
      rw [hr] at h
      simp only [Option.map_some'] at h
      obtain ⟨hj, hv⟩ : p.1 + 1 = j ∧ p.2 = v := by
        have := (Option.some.injEq _ _).mp h
        exact ⟨congrArg Prod.fst this, congrArg Prod.snd this⟩
      subst hj; subst hv
      obtain ⟨hget, hmax⟩ := idxmax_row_spec rest p.1 p.2 (by rw [hr])
      refine ⟨by rw [List.getElem?_cons_succ]; exact hget, fun k u hk => ?_⟩
      cases k with
      | zero => rw [List.getElem?_cons_zero] at hk; cases (Option.some.injEq _ _).mp hk
      | succ k =>
        rw [List.getElem?_cons_succ] at hk
        obtain ⟨hle, hmono⟩ := hmax k u hk
        exact ⟨hle, fun hvu => Nat.succ_le_succ (hmono hvu)⟩
  | some v0 :: rest, j, v, h => by
    rw [show idxmax_row (some v0 :: rest) =
        (match idxmax_row rest with
          | none => some (0, v0)
          | some (j, u) => if v0 < u then some (j + 1, u) else some (0, v0)) from rfl] at h
    cases hr : idxmax_row rest with
    | none =>
      rw [hr] at h
      obtain ⟨hj, hv⟩ : (0 : ℕ) = j ∧ v0 = v := by
        have := (Option.some.injEq _ _).mp h
        exact ⟨congrArg Prod.fst this, congrArg Prod.snd this⟩
      subst hj; subst hv
      refine ⟨by rw [List.getElem?_cons_zero], fun k u hk => ?_⟩
      cases k with
      | zero =>
        rw [List.getElem?_cons_zero] at hk
        have : some v0 = some u := (Option.some.injEq _ _).mp hk
        have hu : u = v0 := ((Option.some.injEq _ _).mp this).symm
        subst hu
        exact ⟨le_refl _, fun _ => le_refl _⟩
      | succ k =>
        rw [List.getElem?_cons_succ] at hk
        exact absurd hk (fun hk => idxmax_row_none_no_some rest hr k u hk)
    | some p =>
      obtain ⟨j0, u0⟩ := p
      rw [hr] at h
      have h2 : (if v0 < u0 then some (j0 + 1, u0) else some (0, v0)) = some (j, v) := h
      obtain ⟨hget, hmax⟩ := idxmax_row_spec rest j0 u0 (by rw [hr])
      by_cases hvu : v0 < u0
      · rw [if_pos hvu] at h2
        obtain ⟨hj, hv⟩ : j0 + 1 = j ∧ u0 = v := by
          have := (Option.some.injEq _ _).mp h2
          exact ⟨congrArg Prod.fst this, congrArg Prod.snd this⟩
        subst hj; subst hv
        refine ⟨by rw [List.getElem?_cons_succ]; exact hget, fun k u hk => ?_⟩
        cases k with
        | zero =>
          rw [List.getElem?_cons_zero] at hk
          have : some v0 = some u := (Option.some.injEq _ _).mp hk
          have hu : u = v0 := ((Option.some.injEq _ _).mp this).symm
          subst hu
          exact ⟨le_of_lt hvu, fun hvu2 => absurd hvu (not_lt.mpr hvu2)⟩
        | succ k =>
          rw [List.getElem?_cons_succ] at hk
          obtain ⟨hle, hmono⟩ := hmax k u hk
          exact ⟨hle, fun hvu2 => Nat.succ_le_succ (hmono hvu2)⟩
      · rw [if_neg hvu] at h2
        obtain ⟨hj, hv⟩ : (0 : ℕ) = j ∧ v0 = v := by
          have := (Option.some.injEq _ _).mp h2
          exact ⟨congrArg Prod.fst this, congrArg Prod.snd this⟩
        subst hj; subst hv
        refine ⟨by rw [List.getElem?_cons_zero], fun k u hk => ?_⟩
        cases k with
        | zero =>
          rw [List.getElem?_cons_zero] at hk
          have : some v0 = some u := (Option.some.injEq _ _).mp hk
          have hu : u = v0 := ((Option.some.injEq _ _).mp this).symm
          subst hu
          exact ⟨le_refl _, fun _ => Nat.zero_le _⟩
        | succ k =>
          rw [List.getElem?_cons_succ] at hk
          obtain ⟨hle, -⟩ := hmax k u hk
          exact ⟨le_trans hle (not_lt.mp hvu), fun _ => Nat.zero_le _⟩

/-! ## Claim C9: cross-asset missing-value propagation -/

/-- Claim C9, counterexample: a row whose predictor returns are all missing is
encoded as the integer `-1` by the momentum-leadership column (not as a
missing value), and the relative strength at a row with one missing predictor
return is a defined number (drawn from the non-missing ones), not missing. -/
theorem C9_counterexample :
    momentum_leader [[some 1, some 2], [none, none]] = [0, -1] ∧
    (momentum_leader [[some 1, some 2], [none, none]])[1]? = some (-1) ∧
    (relative_strength (some 0) [some (1 / 100), none]).isSome = true := by
  exact ⟨rfl, rfl, rfl⟩

/-- Claim C9, amended: a rolling-correlation cell is defined only when its
window is complete and free of missing returns (missingness propagates);
relative strength is missing iff the target return is missing or all predictor
returns are — a partially missing predictor row still yields a defined value;
the momentum leadership cell of an all-missing row is encoded `-1` rather
than kept missing; and where `idxmax` is defined it picks the position of the
maximum value, ties broken by the first occurrence. -/
theorem C9_amended_cross_asset :
    (∀ (f : List ℚ → List ℚ → ℚ) (w : ℕ) (x y : List (Option ℚ)) (i : ℕ) (v : ℚ),
        (rolling_corr_with f w x y)[i]? = some (some v) →
        w ≤ i + 1 ∧ (window_slice w i x).all Option.isSome = true ∧
          (window_slice w i y).all Option.isSome = true) ∧
    (∀ (q : Option ℚ) (tech : List (Option ℚ)),
        relative_strength q tech = none ↔ (q = none ∨ tech.reduceOption = [])) ∧
    (∀ (l : List (Option ℚ)) (j : ℕ) (v : ℚ), idxmax_row l = some (j, v) →
        (l[j]? = some (some v) ∧
          ∀ (k : ℕ) (u : ℚ), l[k]? = some (some u) → u ≤ v ∧ (v ≤ u → j ≤ k))) ∧
    (∀ (rows : List (List (Option ℚ))) (i : ℕ) (r : List (Option ℚ)),
        rows[i]? = some r → (∀ c ∈ r, c = none) →
        (momentum_leader rows)[i]? = some (-1)) := by
  refine ⟨?_, ?_, idxmax_row_spec, ?_⟩
  · intro f w x y i v h
    rcases Nat.lt_or_ge i x.length with hi | hi
    · rw [rolling_corr_with, List.getElem?_map, List.getElem?_range hi] at h
      simp only [Option.map_some'] at h
      have h2 := (Option.some.injEq _ _).mp h
      by_cases hcond : w ≤ i + 1 ∧ (window_slice w i x).all Option.isSome = true
          ∧ (window_slice w i y).all Option.isSome = true
      · exact hcond
      · rw [if_neg hcond] at h2; cases h2
    · rw [rolling_corr_with, List.getElem?_map,
        List.getElem?_eq_none (by simpa using hi)] at h
      cases h
  · intro q tech
    rcases q with _ | a
    · simp [relative_strength]
    · rcases htech : tech.reduceOption with _ | ⟨h0, t0⟩
      · have hmean : row_mean tech = none := by
          rw [row_mean, htech]; rfl
        simp [relative_strength, hmean, htech]
      · have hmean : row_mean tech =
            some ((h0 :: t0).sum / ((h0 :: t0).length : ℚ)) := by
          rw [row_mean, htech]
          rfl
        simp [relative_strength, hmean, htech]
  · intro rows i r hr hall
    have hcol : (rows.map (fun r => (idxmax_row r).map Prod.fst))[i]? = some none := by
      rw [List.getElem?_map, hr]
      simp [idxmax_row_none r hall]
    rw [momentum_leader, cat_codes, List.getElem?_map, hcol]
    rfl

/-- Witness for `C9_amended_cross_asset` at an all-missing predictor row. -/
theorem C9_amended_cross_asset_witness :
    (momentum_leader [[some 1], [none]])[1]? = some (-1) :=
  C9_amended_cross_asset.2.2.2 [[some 1], [none]] 1 [none] rfl (by simp)

/-! ## Cleaner: helper lemmas -/

theorem zip_cell {f : ColKind → Option ℚ → Option ℚ} {kinds : List ColKind}
    {row : List (Option ℚ)} {i : ℕ} {k : ColKind} {c : Option ℚ}
    (hk : kinds[i]? = some k)
    (hc : (List.zipWith f kinds row)[i]? = some c) :
    ∃ c0, row[i]? = some c0 ∧ c = f k c0 := by
  obtain ⟨k2, c0, hk2, hc0, hfc⟩ := List.getElem?_zipWith_eq_some.mp hc
  rw [hk] at hk2
  obtain rfl : k = k2 := (Option.some.injEq _ _).mp hk2
  exact ⟨c0, hc0, hfc.symm⟩

theorem all_zip_elim {f : ColKind → Option ℚ → Bool} {kinds : List ColKind}
    {row : List (Option ℚ)}
    (h : (List.zipWith f kinds row).all id = true) {i : ℕ} {k : ColKind} {c : Option ℚ}
    (hk : kinds[i]? = some k) (hc : row[i]? = some c) : f k c = true := by
  have hval : (List.zipWith f kinds row)[i]? = some (f k c) := by
    rw [List.getElem?_zipWith, hk, hc]
  exact List.all_eq_true.mp h _ (List.getElem?_mem hval)

theorem mkRat_5_100 : (mkRat 5 100 : ℚ) = 5 / 100 := by
  norm_num [Rat.mkRat_eq_div]

theorem mkRat_1_100 : (mkRat 1 100 : ℚ) = 1 / 100 := by
  norm_num [Rat.mkRat_eq_div]

theorem ret_cell_ok_bounds {c : Option ℚ} (h : ret_cell_ok c = true) : ret_bounds c := by
  intro v hv
  subst hv
  rw [← mkRat_5_100]
  simpa [ret_cell_ok] using h

/-- Every row surviving `clean_extreme_outliers` satisfies the cleaned-cell
invariant: in-bound return cells where present, present in-bound volume
cells. -/
theorem clean_extreme_outliers_cleaned {kinds : List ColKind}
    {rows : List (List (Option ℚ))} :
    ∀ r ∈ clean_extreme_outliers kinds rows, cleaned_row kinds r := by
  intro r hr
  rw [clean_extreme_outliers] at hr
  obtain ⟨r3, hr3, rfl⟩ := List.mem_map.mp hr
  obtain ⟨hr3m, hC⟩ := List.mem_filter.mp hr3
  obtain ⟨r2, hr2, rfl⟩ := List.mem_map.mp hr3m
  obtain ⟨hr2m, hA⟩ := List.mem_filter.mp hr2
  intro i k c hk hc
  obtain ⟨c3, hc3, hcc⟩ := zip_cell hk hc
  obtain ⟨c2, hc2, hcc3⟩ := zip_cell hk hc3
  constructor
  · rintro rfl
    have hA2 : (if ColKind.ret = ColKind.ret then ret_cell_ok c2 else true) = true :=
      all_zip_elim hA hk hc2
    rw [if_pos rfl] at hA2
    have hc3eq : c3 = c2 := by rw [hcc3]; simp
    have hceq : c = c2 := by rw [hcc, hc3eq]; simp
    rw [hceq]
    exact ret_cell_ok_bounds hA2
  · rintro rfl
    have hC2 : (if ColKind.vol = ColKind.vol then vol_cell_ok c3 else true) = true :=
      all_zip_elim hC hk hc3
    rw [if_pos rfl] at hC2
    have hceq : c = c3 := by rw [hcc]; simp
    have hc3eq : c3 = c2.map (fun v => max v (mkRat 1 100)) := by rw [hcc3]; simp
    cases c2 with
    | none =>
      rw [hc3eq] at hC2
      simp [vol_cell_ok] at hC2
    | some v0 =>
      rw [hc3eq] at hceq hC2
      simp only [Option.map_some'] at hceq hC2
      refine ⟨by rw [hceq]; rfl, ?_⟩
      intro v hv
      rw [hceq] at hv
      obtain rfl : max v0 (mkRat 1 100) = v := (Option.some.injEq _ _).mp hv
      have hle : max v0 (mkRat 1 100) ≤ 10 := by simpa [vol_cell_ok] using hC2
      exact ⟨by rw [← mkRat_1_100]; exact le_max_right _ _, hle⟩

theorem ffill_step_cell {carry row : List (Option ℚ)} {i : ℕ} {c : Option ℚ}
    (hc : (ffill_step carry row)[i]? = some c) :
    ∃ cc x, carry[i]? = some cc ∧ row[i]? = some x ∧ c = x.orElse (fun _ => cc) := by
  obtain ⟨cc, x, hcc, hx, hfc⟩ := List.getElem?_zipWith_eq_some.mp hc
  exact ⟨cc, x, hcc, hx, hfc.symm⟩

theorem cleaned_row_carry {kinds : List ColKind} {row : List (Option ℚ)}
    (h : cleaned_row kinds row) : carry_row kinds row :=
  fun i k c hk hc =>
    ⟨(h i k c hk hc).1, fun hkv => ((h i k c hk hc).2 hkv).2⟩

theorem carry_row_init {kinds : List ColKind} :
    carry_row kinds (kinds.map (fun _ => none)) := by
  intro i k c hk hc
  rw [List.getElem?_map, hk] at hc
  obtain rfl : (none : Option ℚ) = c := (Option.some.injEq _ _).mp hc
  refine ⟨?_, ?_⟩
  · intro _ v hv
    cases hv
  · intro _ v hv
    cases hv

theorem ffill_step_cleaned {kinds : List ColKind} {carry row : List (Option ℚ)}
    (hcar : carry_row kinds carry) (hrow : cleaned_row kinds row) :
    cleaned_row kinds (ffill_step carry row) := by
  intro i k c hk hc
  obtain ⟨cc, x, hcc, hx, rfl⟩ := ffill_step_cell hc
  have hxc := hrow i k x hk hx
  have hccc := hcar i k cc hk hcc
  cases x with
  | some v => exact hxc
  | none =>
    refine ⟨fun hkr => ?_, fun hkv => ?_⟩
    · exact hccc.1 hkr
    · exact absurd ((hxc.2 hkv).1) (by decide)

theorem ffill_from_cleaned (kinds : List ColKind) :
    ∀ (rows : List (List (Option ℚ))) (carry : List (Option ℚ)),
      carry_row kinds carry → (∀ r ∈ rows, cleaned_row kinds r) →
      ∀ r ∈ ffill_from carry rows, cleaned_row kinds r
  | [], _, _, _ => by intro r hr; cases hr
  | row :: rs, carry, hcar, hall => by
    intro r hr
    have hr2 : r = ffill_step carry row ∨ r ∈ ffill_from (ffill_step carry row) rs :=
      List.mem_cons.mp hr
    have hhead : cleaned_row kinds (ffill_step carry row) :=
      ffill_step_cleaned hcar (hall _ (List.mem_cons_self _ _))
    rcases hr2 with rfl | hr2
    · exact hhead
    · exact ffill_from_cleaned kinds rs (ffill_step carry row)
        (cleaned_row_carry hhead)
        (fun r2 h2 => hall r2 (List.mem_cons_of_mem _ h2)) r hr2

theorem ffill_cleaned {kinds : List ColKind} {rows : List (List (Option ℚ))}
    (h : ∀ r ∈ rows, cleaned_row kinds r) :
    ∀ r ∈ ffill kinds rows, cleaned_row kinds r :=
  ffill_from_cleaned kinds rows _ carry_row_init h

theorem bfill_cleaned {kinds : List ColKind} {rows : List (List (Option ℚ))}
    (h : ∀ r ∈ rows, cleaned_row kinds r) :
    ∀ r ∈ bfill kinds rows, cleaned_row kinds r := by
  intro r hr
  rw [bfill] at hr
  exact ffill_cleaned (fun r2 h2 => h r2 (List.mem_reverse.mp h2)) r
    (List.mem_reverse.mp hr)

/-- Every row of the full Cleaner output satisfies the cleaned-cell invariant
and has no missing cell. -/
theorem cleaner_cleaned {kinds : List ColKind} {rows : List (List (Option ℚ))} :
    ∀ r ∈ cleaner kinds rows, cleaned_row kinds r ∧ r.all Option.isSome = true := by
  intro r hr
  rw [cleaner, handle_missing_data] at hr
  obtain ⟨hmem, hsome⟩ := List.mem_filter.mp hr
  exact ⟨bfill_cleaned (ffill_cleaned clean_extreme_outliers_cleaned) r hmem, hsome⟩

theorem clean_extreme_outliers_append {kinds : List ColKind}
    {xs ys : List (List (Option ℚ))} :
    clean_extreme_outliers kinds (xs ++ ys) =
      clean_extreme_outliers kinds xs ++ clean_extreme_outliers kinds ys := by
  simp [clean_extreme_outliers, List.filter_append, List.map_append]

theorem ffill_from_append :
    ∀ (xs ys : List (List (Option ℚ))) (carry : List (Option ℚ)),
      ffill_from carry (xs ++ ys) =
        ffill_from carry xs ++ ffill_from (ffill_carry carry xs) ys
  | [], ys, carry => by simp [ffill_from, ffill_carry]
  | x :: xs, ys, carry => by
    show ffill_step carry x :: ffill_from (ffill_step carry x) (xs ++ ys) = _
    rw [ffill_from_append xs ys (ffill_step carry x)]
    rfl

/-! ## Claim C1: causality of the cleaned output -/

/-- Claim C1, counterexample: `handle_missing_data` backward-fills
(`df.ffill().bfill()`), so the first cleaned row is filled from the second
input row — mutating the input at index 1 changes the cleaned value at
index 0, and a row whose missing value forward-fill cannot resolve is kept
(filled from the future) rather than dropped. -/
theorem C1_counterexample :
    cleaner [ColKind.other] [[none], [some 1]] = [[some 1], [some 1]] ∧
    cleaner [ColKind.other] [[none], [some 2]] = [[some 2], [some 2]] ∧
    (cleaner [ColKind.other] [[none], [some 1]])[0]? ≠
      (cleaner [ColKind.other] [[none], [some 2]])[0]? := by
  exact ⟨rfl, rfl, by decide⟩

/-- Claim C1, amended: the Cleaner resolves missing values by forward-fill
followed by backward-fill and drops rows still missing after both passes, so
causality fails exactly where backward-fill acts (leading missing cells).
Under the spec's forward-fill-only resolution the pipeline is causal: the
cleaned output of any input prefix is a prefix of the cleaned output of the
whole input, so no value at an index can depend on later input rows. -/
theorem C1_amended_causality :
    ∀ (kinds : List ColKind) (xs ys : List (List (Option ℚ))),
      ∃ zs, cleaner_ffonly kinds (xs ++ ys) = cleaner_ffonly kinds xs ++ zs := by
  intro kinds xs ys
  refine ⟨(ffill_from (ffill_carry (kinds.map fun _ => none)
      (clean_extreme_outliers kinds xs)) (clean_extreme_outliers kinds ys)).filter
      (fun r => r.all Option.isSome), ?_⟩
  rw [cleaner_ffonly, cleaner_ffonly, handle_missing_data_ffonly,
    handle_missing_data_ffonly, clean_extreme_outliers_append, ffill, ffill,
    ffill_from_append, List.filter_append]

/-! ## Claim C6: outlier bounds of the cleaned table -/

/-- Claim C6: in the Cleaner's output every return-column cell is present and
lies within `[-0.05, 0.05]`, and every volume-normalization cell is present
and lies within `[0.01, 10]`; moreover the return-outlier stage only drops
whole rows (its output is a sublist of its input — rows are never clipped),
while the volume floor is applied by clipping. -/
theorem C6_cleaner_outlier_bounds :
    ∀ (kinds : List ColKind) (rows : List (List (Option ℚ))),
      (∀ r ∈ cleaner kinds rows, ∀ (i : ℕ) (k : ColKind) (c : Option ℚ),
        kinds[i]? = some k → r[i]? = some c →
        (k = ColKind.ret → ∃ v, c = some v ∧ -(5 / 100 : ℚ) ≤ v ∧ v ≤ 5 / 100) ∧
        (k = ColKind.vol → ∃ v, c = some v ∧ (1 / 100 : ℚ) ≤ v ∧ v ≤ 10)) ∧
      (rows.filter (ret_row_ok kinds)).Sublist rows := by
  intro kinds rows
  refine ⟨?_, List.filter_sublist rows⟩
  intro r hr i k c hk hc
  obtain ⟨hclean, hsome⟩ := cleaner_cleaned r hr
  have hcell := hclean i k c hk hc
  have hcsome : c.isSome = true :=
    List.all_eq_true.mp hsome c (List.getElem?_mem hc)
  obtain ⟨v, rfl⟩ : ∃ v, c = some v := by
    cases c with
    | none => cases hcsome
    | some v => exact ⟨v, rfl⟩
  exact ⟨fun hkr => ⟨v, rfl, hcell.1 hkr v rfl⟩,
    fun hkv => ⟨v, rfl, (hcell.2 hkv).2 v rfl⟩⟩

/-- Witness for `C6_cleaner_outlier_bounds` on a concrete cleaned table. -/
theorem C6_cleaner_outlier_bounds_witness :
    (ColKind.ret = ColKind.ret →
      ∃ v, (some (0 : ℚ) : Option ℚ) = some v ∧ -(5 / 100 : ℚ) ≤ v ∧ v ≤ 5 / 100) ∧
    (ColKind.ret = ColKind.vol →
      ∃ v, (some (0 : ℚ) : Option ℚ) = some v ∧ (1 / 100 : ℚ) ≤ v ∧ v ≤ 10) := by
  have hmem : [some (0 : ℚ), some 5] ∈
      cleaner [ColKind.ret, ColKind.vol] [[some 0, some 5]] := by
    have heval : cleaner [ColKind.ret, ColKind.vol] [[some 0, some 5]] =
        [[some 0, some 5]] := by decide
    rw [heval]
    exact List.mem_cons_self _ _
  exact (C6_cleaner_outlier_bounds [ColKind.ret, ColKind.vol] [[some 0, some 5]]).1
    [some 0, some 5] hmem 0 ColKind.ret (some 0) rfl rfl

/-! ## Claim C10: asymmetric missing-value treatment of the two filters -/

/-- Claim C10: the return-outlier filter retains rows whose return cell is
missing (`isna` branch), while the volume filter's keep-condition is false on
a missing cell, so every row with a missing volume-normalization cell is
dropped already at the outlier stage — in the outlier-stage output all volume
cells are present. -/
theorem C10_missing_value_asymmetry :
    ∀ (kinds : List ColKind) (rows : List (List (Option ℚ))),
      (∀ r ∈ clean_extreme_outliers kinds rows, ∀ (i : ℕ) (c : Option ℚ),
        kinds[i]? = some ColKind.vol → r[i]? = some c → c.isSome = true) ∧
      ret_cell_ok none = true ∧
      vol_cell_ok none = false ∧
      clean_extreme_outliers [ColKind.ret] [[none]] = [[none]] ∧
      clean_extreme_outliers [ColKind.vol] [[none]] = [] := by
  intro kinds rows
  refine ⟨?_, rfl, rfl, rfl, rfl⟩
  intro r hr i c hk hc
  exact ((clean_extreme_outliers_cleaned r hr i ColKind.vol c hk hc).2 rfl).1

/-- Witness for `C10_missing_value_asymmetry` on a concrete volume column. -/
theorem C10_missing_value_asymmetry_witness :
    (some (5 : ℚ) : Option ℚ).isSome = true := by
  have hmem : [some (5 : ℚ)] ∈ clean_extreme_outliers [ColKind.vol] [[some 5]] := by
    have heval : clean_extreme_outliers [ColKind.vol] [[some 5]] = [[some 5]] := by
      decide
    rw [heval]
    exact List.mem_cons_self _ _
  exact (C10_missing_value_asymmetry [ColKind.vol] [[some 5]]).1
    [some 5] hmem 0 (some 5) rfl rfl

end TradingBoard
